import Mathlib

/-!
Shallow embedding of the chroma-key extraction engine of `nobg.ts`
(statico/nobg): RGB→HSV conversion, circular hue distance, adaptive
corner-sampled background keying, per-pixel mask classification with
graduated edge alpha and spill suppression, single-pass fringe erosion,
and trimming to the bounding box of non-transparent content.

JavaScript arithmetic on pixel data is embedded exactly over `ℚ`
(all divisions and the decimal literals `0.5`, `0.3` are exact
rationals); `Math.round` is `⌊x + 1/2⌋`.  The only irrational
operation, `Math.pow(t, 1.5)`, is embedded exactly: `edgeAlpha` is a
computable integer-square-root form, proved below to equal
`⌊(t : ℝ) ^ (3/2) * 255 + 1/2⌋`, the exact value of
`Math.round(Math.pow(t, 1.5) * 255)` for `t ≥ 0`.
-/

namespace Nobg

/-- JS `Math.round` on an exact rational argument: `⌊x + 1/2⌋`
(rounds halves toward `+∞`, as `Math.round` does). -/
def jsRound (x : ℚ) : ℤ := ⌊x + 1/2⌋

/-- One RGBA pixel: four bytes `r`, `g`, `b`, `a` (values `0..255`). -/
structure Pixel where
  r : ℕ
  g : ℕ
  b : ℕ
  a : ℕ
deriving DecidableEq

instance : Inhabited Pixel := ⟨⟨0, 0, 0, 0⟩⟩

/-- Read color channel `c` of a pixel, `0 = R`, `1 = G`, `2 = B`
(mirrors `raw[i + c]` for `c < 3`). -/
def Pixel.chan (p : Pixel) : ℕ → ℕ
  | 0 => p.r
  | 1 => p.g
  | 2 => p.b
  | _ => 0

/-- Write color channel `c` of a pixel. -/
def Pixel.setChan (p : Pixel) : ℕ → ℕ → Pixel
  | 0, v => { p with r := v }
  | 1, v => { p with g := v }
  | 2, v => { p with b := v }
  | _, _ => p

/-- An RGBA raster: `width`, `height`, row-major pixel list
(`raw` of length `width*height*4`, grouped in 4-byte runs). -/
structure PixelBuffer where
  width : ℕ
  height : ℕ
  data : List Pixel
deriving DecidableEq

/-- Pixel access `px(x, y)` from nobg.ts: index `y * width + x`. -/
def PixelBuffer.px (buf : PixelBuffer) (x y : ℕ) : Pixel :=
  buf.data.getD (y * buf.width + x) default

/-- `rgbToHsv` from nobg.ts lines 148-163: divides each byte by 255,
takes max/min/delta, returns `(h*360, s*100, v*100)`.  The `switch`
statement matches the first of `r`, `g`, `b` equal to the max. -/
def rgbToHsv (r g b : ℕ) : ℚ × ℚ × ℚ :=
  let rq : ℚ := (r : ℚ) / 255
  let gq : ℚ := (g : ℚ) / 255
  let bq : ℚ := (b : ℚ) / 255
  let mx := max rq (max gq bq)
  let mn := min rq (min gq bq)
  let d := mx - mn
  let s : ℚ := if mx = 0 then 0 else d / mx
  let v := mx
  let h : ℚ :=
    if d = 0 then 0
    else if mx = rq then ((gq - bq) / d + (if gq < bq then 6 else 0)) / 6
    else if mx = gq then ((bq - rq) / d + 2) / 6
    else ((rq - gq) / d + 4) / 6
  (h * 360, s * 100, v * 100)

/-- `hueDist` from nobg.ts lines 199-202: circular hue distance. -/
def hueDist (h1 h2 : ℚ) : ℚ :=
  let d := |h1 - h2|
  if d > 180 then 360 - d else d

/-- Threshold `HUE_RANGE` (nobg.ts line 195). -/
def HUE_RANGE : ℚ := 35

/-- Threshold `MIN_SAT` (nobg.ts line 196). -/
def MIN_SAT : ℚ := 20

/-- Threshold `EDGE_HUE_RANGE` (nobg.ts line 197). -/
def EDGE_HUE_RANGE : ℚ := 55

/-- The key-color descriptor (spec §3 `KeyDescriptor`): the globals
`bgR/bgG/bgB`, `bgH`, `bgS`, `spillChannel` of nobg.ts gathered in one
record. -/
structure KeyDescriptor where
  r : ℕ
  g : ℕ
  b : ℕ
  hue : ℚ
  sat : ℚ
  spillChannel : ℕ
deriving DecidableEq

/-- `otherChannels` from nobg.ts line 189: the channels other than the
spill (dominant) channel, in increasing order. -/
def otherChannels (spill : ℕ) : List ℕ :=
  [0, 1, 2].filter (fun c => c ≠ spill)

/-- Derive HSV signature and dominant channel from a key RGB
(nobg.ts lines 184-188: `bgH/bgS` via `rgbToHsv`, `bgMax`,
`spillChannel = bgR === bgMax ? 0 : bgG === bgMax ? 1 : 2`). -/
def mkKeyDescriptor (r g b : ℕ) : KeyDescriptor :=
  let hs := rgbToHsv r g b
  let mx := max r (max g b)
  let spill : ℕ := if r = mx then 0 else if g = mx then 1 else 2
  ⟨r, g, b, hs.1, hs.2.1, spill⟩

/-- Adaptive background keyer (nobg.ts lines 170-188): sample the four
corner pixels, average each channel with `Math.round(sum / 4)`, then
derive HSV and the dominant channel. -/
def adaptiveKey (buf : PixelBuffer) : KeyDescriptor :=
  let c0 := buf.px 0 0
  let c1 := buf.px (buf.width - 1) 0
  let c2 := buf.px 0 (buf.height - 1)
  let c3 := buf.px (buf.width - 1) (buf.height - 1)
  let r := (jsRound (((c0.r + c1.r + c2.r + c3.r : ℕ) : ℚ) / 4)).toNat
  let g := (jsRound (((c0.g + c1.g + c2.g + c3.g : ℕ) : ℚ) / 4)).toNat
  let b := (jsRound (((c0.b + c1.b + c2.b + c3.b : ℕ) : ℚ) / 4)).toNat
  mkKeyDescriptor r g b

/-- The key descriptor actually used by the removal pass of nobg.ts.
The operator chroma color is parsed into bytes `chromaR/chromaG/chromaB`
(lines 98-100) but those bytes only flow into the generation prompt
(line 124); the removal pass derives its key exclusively from the
corner pixels (lines 181-188), so the chroma arguments are unused. -/
def sourceKey (chromaR chromaG chromaB : ℕ) (buf : PixelBuffer) : KeyDescriptor :=
  adaptiveKey buf

/-- Modelled from the spec (§4.2 Fixed strategy): the descriptor's RGB
is taken directly from the operator-supplied color, with HSV and
dominant channel derived the same way as adaptive.  No such strategy
exists in the removal pass of nobg.ts; this definition exists to be
compared with `sourceKey`. -/
def fixedKeyDescriptor (r g b : ℕ) : KeyDescriptor :=
  mkKeyDescriptor r g b

/-- Exact value of `Math.round(Math.pow(t, 1.5) * 255)` for `t ≥ 0`,
in computable form: with `u = 260100 * t³ = (2 * 255 * t^1.5)²`, the
result is `(⌊√u⌋ + 1) / 2 = (Nat.sqrt ⌊u⌋ + 1) / 2`.  The equality
with `⌊(t : ℝ) ^ (3/2) * 255 + 1/2⌋` is proved in
`edgeAlpha_eq_jsPowRound` below. -/
def edgeAlpha (t : ℚ) : ℕ :=
  (Nat.sqrt (⌊(260100 : ℚ) * t ^ 3⌋).toNat + 1) / 2

/-- The edge-band alpha formula of nobg.ts line 214 transcribed over the
reals: `Math.round(Math.pow(t, 1.5) * 255)`. -/
noncomputable def jsPowRound (t : ℚ) : ℤ :=
  ⌊(t : ℝ) ^ ((3 : ℝ) / 2) * 255 + 1/2⌋

/-- The interpolation parameter `t` of nobg.ts line 213 as a function of
the hue distance: `(hd - HUE_RANGE) / (EDGE_HUE_RANGE - HUE_RANGE)`. -/
def tOfHd (hd : ℚ) : ℚ :=
  (hd - HUE_RANGE) / (EDGE_HUE_RANGE - HUE_RANGE)

/-- The hue of a pixel, via `rgbToHsv` (first component). -/
def pixelHue (p : Pixel) : ℚ := (rgbToHsv p.r p.g p.b).1

/-- The saturation of a pixel, via `rgbToHsv` (second component). -/
def pixelSat (p : Pixel) : ℚ := (rgbToHsv p.r p.g p.b).2.1

/-- Hue distance from a pixel's hue to the key hue (nobg.ts line 206). -/
def pixelHd (key : KeyDescriptor) (p : Pixel) : ℚ :=
  hueDist (pixelHue p) key.hue

/-- The `cap` of nobg.ts lines 218 and 244: the max of the pixel's two
non-dominant channels. -/
def spillCap (spill : ℕ) (p : Pixel) : ℕ :=
  max (p.chan ((otherChannels spill).getD 0 0)) (p.chan ((otherChannels spill).getD 1 0))

/-- Spill suppression (nobg.ts lines 217-219 and 243-245): clamp the
dominant channel to the max of the other two channels. -/
def spillSuppressPixel (spill : ℕ) (p : Pixel) : Pixel :=
  p.setChan spill (min (p.chan spill) (spillCap spill p))

/-- One iteration of the classifier loop of nobg.ts lines 204-221,
acting on a single pixel.  In the edge branch with `t < 0` (possible
when `hd < HUE_RANGE` but the saturation is in `[MIN_SAT/2, MIN_SAT)`),
JS computes `Math.pow(t, 1.5) = NaN`; `Math.round` and `Math.min`
propagate the NaN and storing NaN into a `Uint8Array` byte writes 0,
so the embedded alpha is 0 in that case. -/
def classifyPixel (key : KeyDescriptor) (p : Pixel) : Pixel :=
  let s := pixelSat p
  let hd := pixelHd key p
  if hd ≤ HUE_RANGE ∧ MIN_SAT ≤ s then
    { p with a := 0 }
  else if hd ≤ EDGE_HUE_RANGE ∧ MIN_SAT * 0.5 ≤ s then
    let t := tOfHd hd
    let a' : ℕ := if t < 0 then 0 else min p.a (edgeAlpha t)
    spillSuppressPixel key.spillChannel { p with a := a' }
  else p

/-- The classifier pass (nobg.ts lines 204-221): every pixel is
rewritten independently. -/
def classify (key : KeyDescriptor) (buf : PixelBuffer) : PixelBuffer :=
  { buf with data := buf.data.map (classifyPixel key) }

/-- The alpha snapshot `alphaCopy` of nobg.ts lines 225-228: the alpha
byte of the pixel at flat index `i`. -/
def snapshotAlpha (buf : PixelBuffer) (i : ℕ) : ℕ :=
  (buf.data.getD i default).a

/-- The loop bounds of nobg.ts lines 230-231: the pixel at flat index
`i` (`x = i % w`, `y = i / w`) is visited iff `1 ≤ x ≤ w-2` and
`1 ≤ y ≤ h-2`, i.e. it is not on the border. -/
def isInterior (buf : PixelBuffer) (i : ℕ) : Prop :=
  1 ≤ i % buf.width ∧ i % buf.width + 1 < buf.width ∧
    1 ≤ i / buf.width ∧ i / buf.width + 1 < buf.height

instance (buf : PixelBuffer) (i : ℕ) : Decidable (isInterior buf i) :=
  inferInstanceAs (Decidable (_ ∧ _ ∧ _ ∧ _))

/-- The `minNeighbor` of nobg.ts lines 233-239: minimum of the four
orthogonal neighbors' snapshot alphas. -/
def minNeighborAlpha (buf : PixelBuffer) (i : ℕ) : ℕ :=
  let w := buf.width
  let x := i % w
  let y := i / w
  min (min (snapshotAlpha buf ((y - 1) * w + x)) (snapshotAlpha buf ((y + 1) * w + x)))
      (min (snapshotAlpha buf (y * w + x - 1)) (snapshotAlpha buf (y * w + x + 1)))

/-- The body of the erode loop of nobg.ts lines 230-248 for the pixel at
flat index `i`: non-border pixels whose four orthogonal neighbors (read
from the pre-pass alpha snapshot) have minimum alpha 0 get their alpha
reduced to `Math.min(a, Math.round(a * 0.3))` and are spill-suppressed. -/
def erodePixel (spill : ℕ) (buf : PixelBuffer) (i : ℕ) : Pixel :=
  let p := buf.data.getD i default
  if isInterior buf i then
    if minNeighborAlpha buf i = 0 then
      spillSuppressPixel spill { p with a := min p.a (jsRound ((p.a : ℚ) * 0.3)).toNat }
    else p
  else p

/-- The fringe-erosion pass (nobg.ts lines 223-248).  The source takes a
snapshot `alphaCopy` of all alphas before mutating and each loop
iteration writes only bytes of pixel `(x, y)` while reading neighbor
alphas from the snapshot and the pixel's own bytes from `raw`, so the
pass is the independent per-index map `erodePixel`. -/
def erode (spill : ℕ) (buf : PixelBuffer) : PixelBuffer :=
  { buf with data := (List.range (buf.width * buf.height)).map (erodePixel spill buf) }

/-- Modelled from the spec: nobg.ts delegates trimming to the external
sharp encoder (`.trim()`, lines 275-280), which is not part of this
repository; per spec §4.5 the Trimmer computes the bounding box of all
pixels with non-zero alpha and crops to it, and an empty box is the
distinct "nothing left after key removal" failure, returned here as
`none`. -/
def trim (buf : PixelBuffer) : Option PixelBuffer :=
  let w := buf.width
  let keep := (List.range (w * buf.height)).filter
    (fun i => (buf.data.getD i default).a ≠ 0)
  match keep with
  | [] => none
  | i0 :: rest =>
    let xs := (i0 :: rest).map (fun i => i % w)
    let ys := (i0 :: rest).map (fun i => i / w)
    let x0 := xs.foldr min (i0 % w)
    let x1 := xs.foldr max (i0 % w)
    let y0 := ys.foldr min (i0 / w)
    let y1 := ys.foldr max (i0 / w)
    let cw := x1 + 1 - x0
    let ch := y1 + 1 - y0
    some { width := cw, height := ch,
           data := (List.range (cw * ch)).map
             (fun j => buf.px (x0 + j % cw) (y0 + j / cw)) }

/-- The whole removal pipeline on a decoded buffer (nobg.ts lines
170-280): adaptive keying, classification, erosion, trim. -/
def removeBackground (buf : PixelBuffer) : Option PixelBuffer :=
  let key := adaptiveKey buf
  trim (erode key.spillChannel (classify key buf))

/-! ### Helper lemmas about pixels and channel access -/

theorem Pixel.chan_withA (p : Pixel) (x c : ℕ) :
    ({ p with a := x } : Pixel).chan c = p.chan c := by
  rcases c with _ | _ | _ | c <;> rfl

theorem Pixel.a_withA (p : Pixel) (x : ℕ) : ({ p with a := x } : Pixel).a = x := rfl

theorem Pixel.setChan_a (p : Pixel) (c v : ℕ) : (p.setChan c v).a = p.a := by
  rcases c with _ | _ | _ | c <;> rfl

theorem Pixel.chan_setChan_self (p : Pixel) (c v : ℕ) :
    (p.setChan c v).chan c = if c < 3 then v else 0 := by
  rcases c with _ | _ | _ | c
  · simp [Pixel.chan, Pixel.setChan]
  · simp [Pixel.chan, Pixel.setChan]
  · simp [Pixel.chan, Pixel.setChan]
  · simp only [Pixel.chan, Pixel.setChan]
    rw [if_neg (by omega)]

theorem Pixel.chan_setChan_ne (p : Pixel) (c c' v : ℕ) (h : c' ≠ c) :
    (p.setChan c v).chan c' = p.chan c' := by
  rcases c with _ | _ | _ | c <;> rcases c' with _ | _ | _ | c' <;>
    simp_all [Pixel.chan, Pixel.setChan]

theorem spillSuppressPixel_a (spill : ℕ) (p : Pixel) :
    (spillSuppressPixel spill p).a = p.a := by
  simp [spillSuppressPixel, Pixel.setChan_a]

theorem spillSuppressPixel_chan_ne (spill c : ℕ) (p : Pixel) (h : c ≠ spill) :
    (spillSuppressPixel spill p).chan c = p.chan c := by
  simp [spillSuppressPixel, Pixel.chan_setChan_ne _ _ _ _ h]

theorem Pixel.chan_eq_zero_of_ge (p : Pixel) (c : ℕ) (h : 3 ≤ c) : p.chan c = 0 := by
  rcases c with _ | _ | _ | c
  · omega
  · omega
  · omega
  · rfl

theorem spillSuppressPixel_chan_self (spill : ℕ) (p : Pixel) :
    (spillSuppressPixel spill p).chan spill = min (p.chan spill) (spillCap spill p) := by
  by_cases h : spill < 3
  · simp [spillSuppressPixel, Pixel.chan_setChan_self, h]
  · push_neg at h
    simp [spillSuppressPixel, Pixel.chan_setChan_self, Nat.not_lt.mpr h,
      Pixel.chan_eq_zero_of_ge p spill h]

theorem spillSuppressPixel_chan_le (spill c : ℕ) (p : Pixel) :
    (spillSuppressPixel spill p).chan c ≤ p.chan c := by
  by_cases h : c = spill
  · subst h
    rw [spillSuppressPixel_chan_self]
    exact Nat.min_le_left _ _
  · rw [spillSuppressPixel_chan_ne _ _ _ h]

/-! ### Helper lemmas about `jsRound` -/

theorem jsRound_le_nat (a : ℕ) : (jsRound ((a : ℚ) * 0.3)).toNat ≤ a := by
  have h : jsRound ((a : ℚ) * 0.3) ≤ (a : ℤ) := by
    unfold jsRound
    rw [← Int.lt_add_one_iff, Int.floor_lt]
    push_cast
    have : (0 : ℚ) ≤ (a : ℚ) := by positivity
    linarith
  omega

theorem jsRound_nonneg (x : ℚ) (hx : 0 ≤ x) : 0 ≤ jsRound x := by
  unfold jsRound
  rw [Int.le_floor]
  push_cast
  linarith

theorem jsRound_near (x : ℚ) (hx : 0 ≤ x) :
    |(((jsRound x).toNat : ℚ)) - x| ≤ 1/2 := by
  have h0 : 0 ≤ jsRound x := jsRound_nonneg x hx
  have h1 : ((jsRound x : ℚ)) ≤ x + 1/2 := Int.floor_le _
  have h2 : x + 1/2 < (jsRound x : ℚ) + 1 := Int.lt_floor_add_one _
  have h3 : (((jsRound x).toNat : ℚ)) = ((jsRound x : ℚ)) := by
    exact_mod_cast congrArg (Int.cast : ℤ → ℚ) (Int.toNat_of_nonneg h0)
  rw [h3, abs_le]
  constructor <;> linarith

/-! ### Helper lemmas about list indexing through `map` and `range` -/

theorem getD_map_range {α : Type} (n : ℕ) (f : ℕ → α) (i : ℕ) (d : α) :
    (((List.range n).map f).getD i d) = if i < n then f i else d := by
  by_cases h : i < n
  · rw [List.getD_eq_getElem _ _ (by simpa using h)]
    simp [h]
  · rw [List.getD_eq_default _ _ (by simpa using Nat.not_lt.mp h)]
    simp [h]

theorem getD_map_data {α β : Type} [Inhabited α] [Inhabited β] (f : α → β) (l : List α)
    (i : ℕ) (h : i < l.length) :
    ((l.map f).getD i default) = f (l.getD i default) := by
  rw [List.getD_eq_getElem _ _ (by simpa using h), List.getD_eq_getElem _ _ h]
  simp

theorem erode_getD (spill : ℕ) (buf : PixelBuffer) (i : ℕ)
    (h : i < buf.width * buf.height) :
    ((erode spill buf).data.getD i default) = erodePixel spill buf i := by
  simp [erode, getD_map_range, h]

theorem classify_getD (key : KeyDescriptor) (buf : PixelBuffer) (i : ℕ)
    (h : i < buf.data.length) :
    ((classify key buf).data.getD i default) = classifyPixel key (buf.data.getD i default) :=
  getD_map_data _ _ _ h

/-- Evaluation helper: `jsRound x = n` once the floor bounds are checked. -/
theorem jsRound_eq (x : ℚ) (n : ℤ) (h1 : (n : ℚ) ≤ x + 1/2) (h2 : x + 1/2 < n + 1) :
    jsRound x = n :=
  Int.floor_eq_iff.mpr ⟨by exact_mod_cast h1, by exact_mod_cast h2⟩

/-- Evaluation helper: `⌊x⌋ = n` once the floor bounds are checked. -/
theorem ratFloor_eq (x : ℚ) (n : ℤ) (h1 : (n : ℚ) ≤ x) (h2 : x < n + 1) :
    ⌊x⌋ = n :=
  Int.floor_eq_iff.mpr ⟨by exact_mod_cast h1, by exact_mod_cast h2⟩

/-! ### C9: properties of the circular hue distance -/

/-- C9: `hueDist` computes the circular hue distance via `d = |h1-h2|`,
returning `360-d` when `d > 180` and `d` otherwise; it is symmetric,
`hueDist a a = 0` for all `a`, and `hueDist 10 350 = 20`. -/
theorem hueDist_spec :
    (∀ a b : ℚ, hueDist a b = hueDist b a)
    ∧ (∀ a : ℚ, hueDist a a = 0)
    ∧ hueDist 10 350 = 20
    ∧ (∀ a b : ℚ, 180 < |a - b| → hueDist a b = 360 - |a - b|)
    ∧ (∀ a b : ℚ, |a - b| ≤ 180 → hueDist a b = |a - b|) := by
  refine ⟨?_, ?_, ?_, ?_, ?_⟩
  · intro a b
    unfold hueDist
    rw [abs_sub_comm]
  · intro a
    simp [hueDist]
  · norm_num [hueDist]
  · intro a b h
    simp only [hueDist]
    rw [if_pos h]
  · intro a b h
    simp only [hueDist]
    rw [if_neg (not_lt.mpr h)]

/-- Witness for C9: the wrap-around branch applied at the concrete pair
`(200, 0)`, whose raw hue difference exceeds 180. -/
theorem hueDist_spec_witness : hueDist 200 0 = 360 - |(200 : ℚ) - 0| :=
  hueDist_spec.2.2.2.1 200 0 (by norm_num)

/-! ### C4: the core-background branch of the classifier -/

/-- C4: every pixel whose hue distance to the key hue is at most
`HUE_RANGE` and whose saturation is at least `MIN_SAT` has its alpha set
to 0 by the classifier, with the R, G, B bytes left unmodified. -/
theorem core_background_spec (key : KeyDescriptor) (p : Pixel)
    (hhd : pixelHd key p ≤ HUE_RANGE) (hs : MIN_SAT ≤ pixelSat p) :
    classifyPixel key p = { p with a := 0 } := by
  simp only [classifyPixel]
  rw [if_pos ⟨hhd, hs⟩]

/-- Witness for C4: a pure green pixel against the green key becomes
fully transparent with RGB untouched. -/
theorem core_background_spec_witness :
    classifyPixel (mkKeyDescriptor 0 255 0) ⟨0, 255, 0, 255⟩ = ⟨0, 255, 0, 0⟩ :=
  core_background_spec (mkKeyDescriptor 0 255 0) ⟨0, 255, 0, 255⟩
    (by norm_num [pixelHd, pixelHue, rgbToHsv, mkKeyDescriptor, hueDist, HUE_RANGE])
    (by norm_num [pixelSat, rgbToHsv, MIN_SAT])

/-! ### C2: the "fixed" keying strategy -/

/-- A uniform red 2×2 buffer: its corner-sampled key is red, far from
the operator-requested green `#00FF00`. -/
def redBuf : PixelBuffer :=
  ⟨2, 2, [⟨255, 0, 0, 255⟩, ⟨255, 0, 0, 255⟩, ⟨255, 0, 0, 255⟩, ⟨255, 0, 0, 255⟩]⟩

/-- Counterexample to C2: with operator color `#00FF00` (bytes 0,255,0)
and a buffer whose corner average is red, the key descriptor used by
the classification pass is the corner-sampled red one, not the
operator's color: no fixed strategy reaches the classifier. -/
theorem fixed_strategy_counterexample :
    sourceKey 0 255 0 redBuf ≠ fixedKeyDescriptor 0 255 0
    ∧ sourceKey 0 255 0 redBuf = adaptiveKey redBuf
    ∧ (sourceKey 0 255 0 redBuf).r = 255
    ∧ (sourceKey 0 255 0 redBuf).g = 0 := by
  have h255 : jsRound (255 : ℚ) = 255 := jsRound_eq _ 255 (by norm_num) (by norm_num)
  have h0 : jsRound (0 : ℚ) = 0 := jsRound_eq _ 0 (by norm_num) (by norm_num)
  have hkey : sourceKey 0 255 0 redBuf = mkKeyDescriptor 255 0 0 := by
    simp only [sourceKey, adaptiveKey, redBuf, PixelBuffer.px]
    norm_num [List.getD]
    rw [h255, h0]
    rfl
  refine ⟨?_, rfl, ?_, ?_⟩
  · rw [hkey]
    intro h
    have := congrArg KeyDescriptor.r h
    simp [mkKeyDescriptor, fixedKeyDescriptor] at this
  · rw [hkey]; rfl
  · rw [hkey]; rfl

/-- C2 amended: the operator-supplied chroma color is parsed but only
used to build the generation prompt; the key descriptor used by the
mask classifier is always the adaptive corner-sampled one, for every
operator color and every buffer. -/
theorem fixed_strategy_amended (cr cg cb : ℕ) (buf : PixelBuffer) :
    sourceKey cr cg cb buf = adaptiveKey buf
    ∧ classify (sourceKey cr cg cb buf) buf = classify (adaptiveKey buf) buf :=
  ⟨rfl, rfl⟩

/-! ### C6: the adaptive keyer -/

theorem mkKeyDescriptor_spillChannel (r g b : ℕ) :
    (mkKeyDescriptor r g b).spillChannel
      = (if r = max r (max g b) then 0 else if g = max r (max g b) then 1 else 2) :=
  rfl

theorem mkKeyDescriptor_dominant (r g b : ℕ) :
    ((mkKeyDescriptor r g b).spillChannel = 0 ∧ g ≤ r ∧ b ≤ r)
    ∨ ((mkKeyDescriptor r g b).spillChannel = 1 ∧ r < g ∧ b ≤ g)
    ∨ ((mkKeyDescriptor r g b).spillChannel = 2 ∧ r < b ∧ g < b) := by
  rw [mkKeyDescriptor_spillChannel]
  by_cases h1 : r = max r (max g b)
  · left
    have hle := max_eq_left_iff.mp h1.symm
    exact ⟨if_pos h1, le_trans (le_max_left g b) hle, le_trans (le_max_right g b) hle⟩
  · have hrlt : r < max r (max g b) := lt_of_le_of_ne (le_max_left _ _) h1
    by_cases h2 : g = max r (max g b)
    · right; left
      refine ⟨by rw [if_neg h1, if_pos h2], h2 ▸ hrlt, ?_⟩
      calc b ≤ max g b := le_max_right _ _
        _ ≤ max r (max g b) := le_max_right _ _
        _ = g := h2.symm
    · right; right
      have hglt : g < max r (max g b) :=
        lt_of_le_of_ne (le_trans (le_max_left g b) (le_max_right r _)) h2
      have hb : max r (max g b) = b := by
        have hle : max r (max g b) ≤ b := by
          rcases max_choice r (max g b) with h | h
          · omega
          · rcases max_choice g b with h' | h'
            · omega
            · omega
        exact le_antisymm hle (le_trans (le_max_right g b) (le_max_right r _))
      exact ⟨by rw [if_neg h1, if_neg h2], hb ▸ hrlt, hb ▸ hglt⟩

/-- C6: for every buffer with width ≥ 1 and height ≥ 1, the adaptive
keyer's RGB is, per channel, `Math.round` of the average of the four
corner pixels (so it lies within 1/2 of the exact average), and the
dominant channel is the channel with the greatest of `r`, `g`, `b`,
ties resolved by first match in R, G, B order. -/
theorem adaptiveKey_spec (buf : PixelBuffer) (hw : 1 ≤ buf.width) (hh : 1 ≤ buf.height) :
    ((adaptiveKey buf).r = (jsRound ((((buf.px 0 0).r + (buf.px (buf.width - 1) 0).r
        + (buf.px 0 (buf.height - 1)).r + (buf.px (buf.width - 1) (buf.height - 1)).r
        : ℕ) : ℚ) / 4)).toNat)
    ∧ ((adaptiveKey buf).g = (jsRound ((((buf.px 0 0).g + (buf.px (buf.width - 1) 0).g
        + (buf.px 0 (buf.height - 1)).g + (buf.px (buf.width - 1) (buf.height - 1)).g
        : ℕ) : ℚ) / 4)).toNat)
    ∧ ((adaptiveKey buf).b = (jsRound ((((buf.px 0 0).b + (buf.px (buf.width - 1) 0).b
        + (buf.px 0 (buf.height - 1)).b + (buf.px (buf.width - 1) (buf.height - 1)).b
        : ℕ) : ℚ) / 4)).toNat)
    ∧ |((adaptiveKey buf).r : ℚ) - (((buf.px 0 0).r + (buf.px (buf.width - 1) 0).r
        + (buf.px 0 (buf.height - 1)).r + (buf.px (buf.width - 1) (buf.height - 1)).r
        : ℕ) : ℚ) / 4| ≤ 1/2
    ∧ |((adaptiveKey buf).g : ℚ) - (((buf.px 0 0).g + (buf.px (buf.width - 1) 0).g
        + (buf.px 0 (buf.height - 1)).g + (buf.px (buf.width - 1) (buf.height - 1)).g
        : ℕ) : ℚ) / 4| ≤ 1/2
    ∧ |((adaptiveKey buf).b : ℚ) - (((buf.px 0 0).b + (buf.px (buf.width - 1) 0).b
        + (buf.px 0 (buf.height - 1)).b + (buf.px (buf.width - 1) (buf.height - 1)).b
        : ℕ) : ℚ) / 4| ≤ 1/2
    ∧ (((adaptiveKey buf).spillChannel = 0
          ∧ (adaptiveKey buf).g ≤ (adaptiveKey buf).r
          ∧ (adaptiveKey buf).b ≤ (adaptiveKey buf).r)
       ∨ ((adaptiveKey buf).spillChannel = 1
          ∧ (adaptiveKey buf).r < (adaptiveKey buf).g
          ∧ (adaptiveKey buf).b ≤ (adaptiveKey buf).g)
       ∨ ((adaptiveKey buf).spillChannel = 2
          ∧ (adaptiveKey buf).r < (adaptiveKey buf).b
          ∧ (adaptiveKey buf).g < (adaptiveKey buf).b)) := by
  refine ⟨rfl, rfl, rfl, ?_, ?_, ?_, ?_⟩
  · exact jsRound_near _ (by positivity)
  · exact jsRound_near _ (by positivity)
  · exact jsRound_near _ (by positivity)
  · exact mkKeyDescriptor_dominant _ _ _

/-- A concrete 2×1 buffer used to witness the adaptive keyer: corner
averages are (15, 15, 35), so blue dominates. -/
def cBuf : PixelBuffer := ⟨2, 1, [⟨10, 20, 30, 255⟩, ⟨20, 10, 40, 255⟩]⟩

/-- Witness for C6: the dominant-channel invariant evaluated on `cBuf`. -/
theorem adaptiveKey_spec_witness :
    ((adaptiveKey cBuf).spillChannel = 0
       ∧ (adaptiveKey cBuf).g ≤ (adaptiveKey cBuf).r
       ∧ (adaptiveKey cBuf).b ≤ (adaptiveKey cBuf).r)
    ∨ ((adaptiveKey cBuf).spillChannel = 1
       ∧ (adaptiveKey cBuf).r < (adaptiveKey cBuf).g
       ∧ (adaptiveKey cBuf).b ≤ (adaptiveKey cBuf).g)
    ∨ ((adaptiveKey cBuf).spillChannel = 2
       ∧ (adaptiveKey cBuf).r < (adaptiveKey cBuf).b
       ∧ (adaptiveKey cBuf).g < (adaptiveKey cBuf).b) :=
  (adaptiveKey_spec cBuf (by decide) (by decide)).2.2.2.2.2.2

/-! ### C7: spill suppression at its two application sites -/

theorem spillCap_withA (spill : ℕ) (p : Pixel) (x : ℕ) :
    spillCap spill ({ p with a := x } : Pixel) = spillCap spill p := by
  simp [spillCap, Pixel.chan_withA]

theorem default_chan (c : ℕ) : (default : Pixel).chan c = 0 := by
  rcases c with _ | _ | _ | c <;> rfl

theorem erode_length (spill : ℕ) (buf : PixelBuffer) :
    (erode spill buf).data.length = buf.width * buf.height := by
  simp [erode]

theorem erodePixel_chan_le (spill : ℕ) (buf : PixelBuffer) (i c : ℕ) :
    (erodePixel spill buf i).chan c ≤ (buf.data.getD i default).chan c := by
  unfold erodePixel
  split
  · split
    · calc (spillSuppressPixel spill
            ({ buf.data.getD i default with
                a := min (buf.data.getD i default).a
                  (jsRound (((buf.data.getD i default).a : ℚ) * 0.3)).toNat } : Pixel)).chan c
          ≤ ({ buf.data.getD i default with
                a := min (buf.data.getD i default).a
                  (jsRound (((buf.data.getD i default).a : ℚ) * 0.3)).toNat } : Pixel).chan c :=
            spillSuppressPixel_chan_le _ _ _
        _ = (buf.data.getD i default).chan c := Pixel.chan_withA _ _ _
    · exact le_refl _
  · exact le_refl _

/-- C7: whenever spill suppression is applied — in the edge branch of
the classifier and to eroded fringe pixels — the pixel's dominant
channel becomes `min(previous dominant value, max of the other two
channels)`, and (everywhere, unconditionally) the eroder never
increases the dominant channel's value. -/
theorem spill_suppression_spec (key : KeyDescriptor) (p : Pixel)
    (hcore : ¬(pixelHd key p ≤ HUE_RANGE ∧ MIN_SAT ≤ pixelSat p))
    (hedge : pixelHd key p ≤ EDGE_HUE_RANGE ∧ MIN_SAT * 0.5 ≤ pixelSat p) :
    ((classifyPixel key p).chan key.spillChannel
        = min (p.chan key.spillChannel) (spillCap key.spillChannel p)
      ∧ (classifyPixel key p).chan key.spillChannel ≤ p.chan key.spillChannel)
    ∧ (∀ (spill : ℕ) (buf : PixelBuffer) (i : ℕ), i < buf.width * buf.height →
        isInterior buf i → minNeighborAlpha buf i = 0 →
        ((erode spill buf).data.getD i default).chan spill
          = min ((buf.data.getD i default).chan spill)
              (spillCap spill (buf.data.getD i default)))
    ∧ (∀ (spill : ℕ) (buf : PixelBuffer) (i : ℕ),
        ((erode spill buf).data.getD i default).chan spill
          ≤ ((buf.data.getD i default)).chan spill) := by
  refine ⟨?_, ?_, ?_⟩
  · have hcls : classifyPixel key p
        = spillSuppressPixel key.spillChannel
            { p with a := if tOfHd (pixelHd key p) < 0 then 0
                          else min p.a (edgeAlpha (tOfHd (pixelHd key p))) } := by
      simp only [classifyPixel]
      rw [if_neg hcore, if_pos hedge]
    rw [hcls, spillSuppressPixel_chan_self, Pixel.chan_withA, spillCap_withA]
    exact ⟨rfl, Nat.min_le_left _ _⟩
  · intro spill buf i hi hint hmin
    rw [erode_getD _ _ _ hi]
    unfold erodePixel
    rw [if_pos hint, if_pos hmin]
    rw [spillSuppressPixel_chan_self, Pixel.chan_withA, spillCap_withA]
  · intro spill buf i
    by_cases hi : i < buf.width * buf.height
    · rw [erode_getD _ _ _ hi]
      exact erodePixel_chan_le _ _ _ _
    · rw [List.getD_eq_default _ _ (by rw [erode_length]; omega)]
      rw [default_chan]
      exact Nat.zero_le _

/-- Witness for C7: the edge-branch cap evaluated on a concrete pixel
(hue 175, key hue 120, so `hd = 55`) against the green key. -/
theorem spill_suppression_spec_witness :
    (classifyPixel (mkKeyDescriptor 0 255 0) ⟨50, 170, 160, 255⟩).chan
        (mkKeyDescriptor 0 255 0).spillChannel
      = min ((⟨50, 170, 160, 255⟩ : Pixel).chan (mkKeyDescriptor 0 255 0).spillChannel)
          (spillCap (mkKeyDescriptor 0 255 0).spillChannel ⟨50, 170, 160, 255⟩) :=
  (spill_suppression_spec (mkKeyDescriptor 0 255 0) ⟨50, 170, 160, 255⟩
    (by norm_num [pixelHd, pixelHue, pixelSat, rgbToHsv, mkKeyDescriptor, hueDist,
      HUE_RANGE, MIN_SAT])
    (by norm_num [pixelHd, pixelHue, pixelSat, rgbToHsv, mkKeyDescriptor, hueDist,
      EDGE_HUE_RANGE, MIN_SAT])).1.1

/-! ### C5: the fringe eroder -/

/-- C5: the eroder reads neighbor alphas from the pre-pass snapshot;
a non-border pixel whose four orthogonal neighbors have minimum
snapshot alpha 0 has its alpha reduced to `round(alpha * 0.3)`; no
alpha ever increases; border pixels and pixels with no fully
transparent orthogonal neighbor keep their alpha unchanged. -/
theorem eroder_spec (spill : ℕ) (buf : PixelBuffer) (i : ℕ)
    (hi : i < buf.width * buf.height) :
    (((erode spill buf).data.getD i default).a ≤ snapshotAlpha buf i)
    ∧ (isInterior buf i → minNeighborAlpha buf i = 0 →
        ((erode spill buf).data.getD i default).a
          = (jsRound ((snapshotAlpha buf i : ℚ) * 0.3)).toNat)
    ∧ ((¬ isInterior buf i ∨ minNeighborAlpha buf i ≠ 0) →
        ((erode spill buf).data.getD i default).a = snapshotAlpha buf i) := by
  rw [erode_getD _ _ _ hi]
  unfold erodePixel
  refine ⟨?_, ?_, ?_⟩
  · split
    · split
      · rw [spillSuppressPixel_a, Pixel.a_withA]
        exact Nat.min_le_left _ _
      · exact le_refl _
    · exact le_refl _
  · intro hint hmin
    rw [if_pos hint, if_pos hmin, spillSuppressPixel_a, Pixel.a_withA]
    exact Nat.min_eq_right (jsRound_le_nat _)
  · intro h
    by_cases hint : isInterior buf i
    · rcases h with h | h
      · exact absurd hint h
      · rw [if_pos hint, if_neg h]
        rfl
    · rw [if_neg hint]
      rfl

/-- A 3×3 buffer whose center pixel (alpha 200) has a fully transparent
upper neighbor, used to witness the eroder. -/
def eBuf : PixelBuffer :=
  ⟨3, 3, [⟨10, 10, 10, 255⟩, ⟨10, 10, 10, 0⟩, ⟨10, 10, 10, 255⟩,
          ⟨10, 10, 10, 255⟩, ⟨100, 100, 100, 200⟩, ⟨10, 10, 10, 255⟩,
          ⟨10, 10, 10, 255⟩, ⟨10, 10, 10, 255⟩, ⟨10, 10, 10, 255⟩]⟩

/-- Witness for C5: the center pixel of `eBuf` is eroded to
`round(200 * 0.3) = 60`. -/
theorem eroder_spec_witness :
    ((erode 1 eBuf).data.getD 4 default).a
      = (jsRound ((snapshotAlpha eBuf 4 : ℚ) * 0.3)).toNat :=
  (eroder_spec 1 eBuf 4 (by decide)).2.1 (by decide) (by decide)

/-! ### C10: which bytes the classifier and eroder may touch -/

theorem classifyPixel_chan_ne (key : KeyDescriptor) (p : Pixel) (c : ℕ)
    (hc : c ≠ key.spillChannel) :
    (classifyPixel key p).chan c = p.chan c := by
  simp only [classifyPixel]
  split
  · exact Pixel.chan_withA _ _ _
  · split
    · rw [spillSuppressPixel_chan_ne _ _ _ hc, Pixel.chan_withA]
    · rfl

theorem classifyPixel_subject (key : KeyDescriptor) (p : Pixel)
    (hcore : ¬(pixelHd key p ≤ HUE_RANGE ∧ MIN_SAT ≤ pixelSat p))
    (hedge : ¬(pixelHd key p ≤ EDGE_HUE_RANGE ∧ MIN_SAT * 0.5 ≤ pixelSat p)) :
    classifyPixel key p = p := by
  simp only [classifyPixel]
  rw [if_neg hcore, if_neg hedge]

/-- C10: across classification followed by erosion, a pixel's two
non-dominant color channels are never modified, and a pixel classified
as subject whose orthogonal neighbors (when it is not on the border)
all have non-zero post-classification alpha is byte-for-byte
unchanged. -/
theorem frame_effect_spec (key : KeyDescriptor) (buf : PixelBuffer)
    (hlen : buf.data.length = buf.width * buf.height)
    (i : ℕ) (hi : i < buf.width * buf.height) :
    (∀ c : ℕ, c < 3 → c ≠ key.spillChannel →
      ((erode key.spillChannel (classify key buf)).data.getD i default).chan c
        = ((buf.data.getD i default)).chan c)
    ∧ (¬(pixelHd key (buf.data.getD i default) ≤ HUE_RANGE
          ∧ MIN_SAT ≤ pixelSat (buf.data.getD i default)) →
       ¬(pixelHd key (buf.data.getD i default) ≤ EDGE_HUE_RANGE
          ∧ MIN_SAT * 0.5 ≤ pixelSat (buf.data.getD i default)) →
       (isInterior (classify key buf) i → minNeighborAlpha (classify key buf) i ≠ 0) →
       (erode key.spillChannel (classify key buf)).data.getD i default
         = buf.data.getD i default) := by
  have hi' : i < (classify key buf).width * (classify key buf).height := hi
  have hid : i < buf.data.length := by omega
  have hcls : (classify key buf).data.getD i default
      = classifyPixel key (buf.data.getD i default) := classify_getD _ _ _ hid
  constructor
  · intro c hc3 hcne
    rw [erode_getD _ _ _ hi']
    unfold erodePixel
    have hchan : ((classify key buf).data.getD i default).chan c
        = (buf.data.getD i default).chan c := by
      rw [hcls]
      exact classifyPixel_chan_ne _ _ _ hcne
    split
    · split
      · rw [spillSuppressPixel_chan_ne _ _ _ hcne, Pixel.chan_withA, hchan]
      · exact hchan
    · exact hchan
  · intro hcore hedge hmin
    rw [erode_getD _ _ _ hi']
    unfold erodePixel
    have hsub : (classify key buf).data.getD i default = buf.data.getD i default := by
      rw [hcls]
      exact classifyPixel_subject _ _ hcore hedge
    by_cases hint : isInterior (classify key buf) i
    · rw [if_pos hint, if_neg (hmin hint)]
      exact hsub
    · rw [if_neg hint]
      exact hsub

/-- A 1×1 buffer holding a single red subject pixel. -/
def oneRed : PixelBuffer := ⟨1, 1, [⟨255, 0, 0, 255⟩]⟩

/-- Witness for C10: the red subject pixel of `oneRed` survives
classification and erosion byte-for-byte under the green key. -/
theorem frame_effect_spec_witness :
    (erode (mkKeyDescriptor 0 255 0).spillChannel
        (classify (mkKeyDescriptor 0 255 0) oneRed)).data.getD 0 default
      = oneRed.data.getD 0 default :=
  (frame_effect_spec (mkKeyDescriptor 0 255 0) oneRed (by decide) 0 (by decide)).2
    (by norm_num [pixelHd, pixelHue, pixelSat, rgbToHsv, mkKeyDescriptor, hueDist,
      HUE_RANGE, MIN_SAT, oneRed, List.getD])
    (by norm_num [pixelHd, pixelHue, pixelSat, rgbToHsv, mkKeyDescriptor, hueDist,
      EDGE_HUE_RANGE, MIN_SAT, oneRed, List.getD])
    (fun h => absurd h (by decide))

/-! ### C1: the fully-transparent result is a distinct failure -/

theorem trim_eq_none (buf : PixelBuffer)
    (h : ∀ i, (buf.data.getD i default).a = 0) :
    trim buf = none := by
  have hkeep : (List.range (buf.width * buf.height)).filter
      (fun i => (buf.data.getD i default).a ≠ 0) = [] := by
    rw [List.filter_eq_nil_iff]
    intro a _
    have h' := h a
    rw [List.getD_eq_getElem?_getD] at h'
    simp [h']
  simp only [trim]
  rw [hkeep]

/-- C1: if classification marks every pixel fully transparent, the trim
step finds no non-transparent content and the pipeline returns the
distinct "nothing left after key removal" failure (`none`), not a
zero-sized or corrupt buffer. -/
theorem nothing_left_spec (buf : PixelBuffer)
    (hlen : buf.data.length = buf.width * buf.height)
    (hall : ∀ p ∈ (classify (adaptiveKey buf) buf).data, p.a = 0) :
    removeBackground buf = none := by
  have hz : ∀ i, ((classify (adaptiveKey buf) buf).data.getD i default).a = 0 := by
    intro i
    by_cases h : i < (classify (adaptiveKey buf) buf).data.length
    · rw [List.getD_eq_getElem _ _ h]
      exact hall _ (List.getElem_mem h)
    · rw [List.getD_eq_default _ _ (Nat.not_lt.mp h)]
      rfl
  have he : ∀ i,
      ((erode (adaptiveKey buf).spillChannel (classify (adaptiveKey buf) buf)).data.getD
        i default).a = 0 := by
    intro i
    by_cases hi : i < (classify (adaptiveKey buf) buf).width
        * (classify (adaptiveKey buf) buf).height
    · rw [erode_getD _ _ _ hi]
      unfold erodePixel
      split
      · split
        · rw [spillSuppressPixel_a, Pixel.a_withA, hz i]
          exact Nat.zero_min _
        · exact hz i
      · exact hz i
    · rw [List.getD_eq_default _ _ (by rw [erode_length]; omega)]
      rfl
  simp only [removeBackground]
  exact trim_eq_none _ he

/-- A uniform green 2×2 buffer: the adaptive key matches every pixel,
so classification wipes the whole image. -/
def greenBuf : PixelBuffer :=
  ⟨2, 2, [⟨0, 255, 0, 255⟩, ⟨0, 255, 0, 255⟩, ⟨0, 255, 0, 255⟩, ⟨0, 255, 0, 255⟩]⟩

/-- Witness for C1: the uniform key-colored buffer yields the
"nothing left" failure. -/
theorem nothing_left_spec_witness : removeBackground greenBuf = none := by
  apply nothing_left_spec greenBuf (by decide)
  have h255 : jsRound (255 : ℚ) = 255 := jsRound_eq _ 255 (by norm_num) (by norm_num)
  have h0 : jsRound (0 : ℚ) = 0 := jsRound_eq _ 0 (by norm_num) (by norm_num)
  have hkey : adaptiveKey greenBuf = mkKeyDescriptor 0 255 0 := by
    simp only [adaptiveKey, greenBuf, PixelBuffer.px]
    norm_num [List.getD]
    rw [h255, h0]
    rfl
  have hpix : classifyPixel (adaptiveKey greenBuf) ⟨0, 255, 0, 255⟩ = ⟨0, 255, 0, 0⟩ := by
    rw [hkey]
    norm_num [classifyPixel, pixelHd, pixelHue, pixelSat, rgbToHsv, mkKeyDescriptor,
      hueDist, HUE_RANGE, MIN_SAT]
  have hdata : (classify (adaptiveKey greenBuf) greenBuf).data
      = [⟨0, 255, 0, 0⟩, ⟨0, 255, 0, 0⟩, ⟨0, 255, 0, 0⟩, ⟨0, 255, 0, 0⟩] := by
    show List.map (classifyPixel (adaptiveKey greenBuf)) greenBuf.data = _
    rw [show greenBuf.data
        = [⟨0, 255, 0, 255⟩, ⟨0, 255, 0, 255⟩, ⟨0, 255, 0, 255⟩, ⟨0, 255, 0, 255⟩] from rfl]
    simp [hpix]
  intro p hp
  rw [hdata] at hp
  simp only [List.mem_cons, List.not_mem_nil, or_false] at hp
  rcases hp with h | h | h | h <;> rw [h]

/-! ### The bridge between `edgeAlpha` and the real-valued formula -/

theorem nat_floor_sqrt (x : ℝ) (hx : 0 ≤ x) : ⌊Real.sqrt x⌋₊ = Nat.sqrt ⌊x⌋₊ := by
  rw [Nat.floor_eq_iff (Real.sqrt_nonneg x)]
  constructor
  · rw [Real.le_sqrt (by positivity) hx]
    calc ((Nat.sqrt ⌊x⌋₊ : ℝ)) ^ 2 = ((Nat.sqrt ⌊x⌋₊ ^ 2 : ℕ) : ℝ) := by push_cast; ring
      _ ≤ ((⌊x⌋₊ : ℕ) : ℝ) := by exact_mod_cast Nat.sqrt_le' _
      _ ≤ x := Nat.floor_le hx
  · rw [Real.sqrt_lt' (by positivity)]
    calc x < ⌊x⌋₊ + 1 := Nat.lt_floor_add_one x
      _ ≤ (((Nat.sqrt ⌊x⌋₊ + 1) ^ 2 : ℕ) : ℝ) := by
          exact_mod_cast Nat.succ_le_of_lt (Nat.lt_succ_sqrt' ⌊x⌋₊)
      _ = ((Nat.sqrt ⌊x⌋₊ : ℝ) + 1) ^ 2 := by push_cast; ring

theorem natFloor_rat_cast (u : ℚ) : ⌊((u : ℝ))⌋₊ = ⌊u⌋₊ := by
  rw [← Int.floor_toNat, ← Int.floor_toNat, Rat.floor_cast]

/-- `edgeAlpha` computes exactly `Math.round(Math.pow(t, 1.5) * 255)`:
for `t ≥ 0` it equals `⌊(t : ℝ)^(3/2) * 255 + 1/2⌋`. -/
theorem edgeAlpha_eq_jsPowRound (t : ℚ) (ht : 0 ≤ t) :
    (edgeAlpha t : ℤ) = jsPowRound t := by
  have htR : (0 : ℝ) ≤ (t : ℝ) := by exact_mod_cast ht
  set X : ℝ := (t : ℝ) ^ ((3 : ℝ) / 2) * 255 with hX
  have hXnn : 0 ≤ X := by
    rw [hX]
    have := Real.rpow_nonneg htR ((3 : ℝ) / 2)
    linarith
  have h32 : ((t : ℝ) ^ ((3 : ℝ) / 2)) ^ (2 : ℕ) = (t : ℝ) ^ (3 : ℕ) := by
    rw [← Real.rpow_natCast ((t : ℝ) ^ ((3 : ℝ) / 2)) 2, ← Real.rpow_mul htR,
        ← Real.rpow_natCast (t : ℝ) 3]
    norm_num
  have hsq : (2 * X) ^ 2 = ((260100 * t ^ 3 : ℚ) : ℝ) := by
    have h1 : (2 * X) ^ 2 = 260100 * (((t : ℝ) ^ ((3 : ℝ) / 2)) ^ (2 : ℕ)) := by
      rw [hX]; ring
    rw [h1, h32]
    push_cast
    ring
  have hsqrt : Real.sqrt (((260100 * t ^ 3 : ℚ) : ℝ)) = 2 * X := by
    rw [← hsq, Real.sqrt_sq (by linarith)]
  have hu0 : (0 : ℝ) ≤ ((260100 * t ^ 3 : ℚ) : ℝ) := by
    have : (0 : ℚ) ≤ 260100 * t ^ 3 := by positivity
    exact_mod_cast this
  have hfl : ⌊2 * X⌋₊ = Nat.sqrt ⌊(260100 * t ^ 3 : ℚ)⌋₊ := by
    rw [← hsqrt, nat_floor_sqrt _ hu0, natFloor_rat_cast]
  have hedge : edgeAlpha t = (⌊2 * X⌋₊ + 1) / 2 := by
    unfold edgeAlpha
    rw [Int.floor_toNat, hfl]
  have hbound1 : ((⌊2 * X⌋₊ : ℝ)) ≤ 2 * X := Nat.floor_le (by linarith)
  have hbound2 : 2 * X < ⌊2 * X⌋₊ + 1 := Nat.lt_floor_add_one _
  have hmain : jsPowRound t = ((⌊2 * X⌋₊ + 1) / 2 : ℕ) := by
    unfold jsPowRound
    rw [← hX, Int.floor_eq_iff]
    rcases Nat.even_or_odd ⌊2 * X⌋₊ with he | ho
    · obtain ⟨k, hk⟩ := he
      have hdiv : (⌊2 * X⌋₊ + 1) / 2 = k := by omega
      rw [hdiv]
      have hcast : ((⌊2 * X⌋₊ : ℝ)) = 2 * k := by
        rw [hk]; push_cast; ring
      constructor
      · push_cast
        rw [hcast] at hbound1
        linarith
      · push_cast
        rw [hcast] at hbound2
        linarith
    · obtain ⟨k, hk⟩ := ho
      have hdiv : (⌊2 * X⌋₊ + 1) / 2 = k + 1 := by omega
      rw [hdiv]
      have hcast : ((⌊2 * X⌋₊ : ℝ)) = 2 * k + 1 := by
        rw [hk]; push_cast; ring
      constructor
      · push_cast
        rw [hcast] at hbound1
        linarith
      · push_cast
        rw [hcast] at hbound2
        linarith
  rw [hedge, hmain]

/-! ### C3: the edge branch of the classifier -/

/-- C3 (amended): in the edge branch (`hd ≤ EDGE_HUE_RANGE`,
`saturation ≥ MIN_SAT/2`, not core background), when
`t = (hd - HUE_RANGE)/(EDGE_HUE_RANGE - HUE_RANGE)` is non-negative it
satisfies `t ≤ 1` and the alpha becomes
`min(currentAlpha, round(t^1.5 * 255))`; when `t < 0` (reachable when
`hd < HUE_RANGE` with saturation in `[MIN_SAT/2, MIN_SAT)`), JS NaN
propagation stores alpha 0.  Opacity never increases, and pixels
matching neither condition are left unchanged. -/
theorem classifier_edge_spec (key : KeyDescriptor) (p : Pixel)
    (hcore : ¬(pixelHd key p ≤ HUE_RANGE ∧ MIN_SAT ≤ pixelSat p)) :
    ((pixelHd key p ≤ EDGE_HUE_RANGE ∧ MIN_SAT * 0.5 ≤ pixelSat p) →
       (0 ≤ tOfHd (pixelHd key p) →
          tOfHd (pixelHd key p) ≤ 1
          ∧ (classifyPixel key p).a
              = min p.a (jsPowRound (tOfHd (pixelHd key p))).toNat)
       ∧ (tOfHd (pixelHd key p) < 0 → (classifyPixel key p).a = 0)
       ∧ (classifyPixel key p).a ≤ p.a)
    ∧ (¬(pixelHd key p ≤ EDGE_HUE_RANGE ∧ MIN_SAT * 0.5 ≤ pixelSat p) →
       classifyPixel key p = p) := by
  constructor
  · intro hedge
    have hcls : classifyPixel key p = spillSuppressPixel key.spillChannel
        { p with a := if tOfHd (pixelHd key p) < 0 then 0
                      else min p.a (edgeAlpha (tOfHd (pixelHd key p))) } := by
      simp only [classifyPixel]
      rw [if_neg hcore, if_pos hedge]
    refine ⟨?_, ?_, ?_⟩
    · intro ht0
      constructor
      · have h55 : pixelHd key p ≤ 55 := by
          have := hedge.1
          simpa [EDGE_HUE_RANGE] using this
        simp only [tOfHd, HUE_RANGE, EDGE_HUE_RANGE]
        rw [show (55 : ℚ) - 35 = 20 by norm_num,
          div_le_one (by norm_num : (0 : ℚ) < 20)]
        linarith
      · rw [hcls, spillSuppressPixel_a, Pixel.a_withA, if_neg (not_lt.mpr ht0)]
        congr 1
        have hb := edgeAlpha_eq_jsPowRound _ ht0
        omega
    · intro htneg
      rw [hcls, spillSuppressPixel_a, Pixel.a_withA, if_pos htneg]
    · rw [hcls, spillSuppressPixel_a, Pixel.a_withA]
      split
      · exact Nat.zero_le _
      · exact Nat.min_le_left _ _
  · intro hedge
    simp only [classifyPixel]
    rw [if_neg hcore, if_neg hedge]

/-- Counterexample to C3 as stated: the desaturated near-key pixel
`(200, 230, 200)` (hue 120, saturation ≈ 13) against the green key has
`hd = 0`, is not core background (saturation below `MIN_SAT`), enters
the edge branch (saturation ≥ `MIN_SAT/2`), yet `t = -7/4 ∉ [0, 1]`;
the JS computation stores alpha 0 (NaN written to a `Uint8Array`),
not `min(currentAlpha, round(t^1.5 * 255))` for a `t ∈ [0,1]`. -/
theorem classifier_edge_counterexample :
    ¬(pixelHd (mkKeyDescriptor 0 255 0) ⟨200, 230, 200, 255⟩ ≤ HUE_RANGE
        ∧ MIN_SAT ≤ pixelSat ⟨200, 230, 200, 255⟩)
    ∧ (pixelHd (mkKeyDescriptor 0 255 0) ⟨200, 230, 200, 255⟩ ≤ EDGE_HUE_RANGE
        ∧ MIN_SAT * 0.5 ≤ pixelSat ⟨200, 230, 200, 255⟩)
    ∧ tOfHd (pixelHd (mkKeyDescriptor 0 255 0) ⟨200, 230, 200, 255⟩) < 0
    ∧ (classifyPixel (mkKeyDescriptor 0 255 0) ⟨200, 230, 200, 255⟩).a = 0 := by
  norm_num [classifyPixel, pixelHd, pixelHue, pixelSat, rgbToHsv, mkKeyDescriptor,
    hueDist, tOfHd, HUE_RANGE, MIN_SAT, EDGE_HUE_RANGE, spillSuppressPixel, spillCap,
    otherChannels, Pixel.chan, Pixel.setChan]

/-- Witness for C3 (amended): the hue-175 pixel at the outer edge of
the band (`hd = 55`, `t = 1`) against the green key. -/
theorem classifier_edge_spec_witness :
    tOfHd (pixelHd (mkKeyDescriptor 0 255 0) ⟨50, 170, 160, 255⟩) ≤ 1
    ∧ (classifyPixel (mkKeyDescriptor 0 255 0) ⟨50, 170, 160, 255⟩).a
        = min (⟨50, 170, 160, 255⟩ : Pixel).a
            (jsPowRound (tOfHd (pixelHd (mkKeyDescriptor 0 255 0)
              ⟨50, 170, 160, 255⟩))).toNat :=
  ((classifier_edge_spec (mkKeyDescriptor 0 255 0) ⟨50, 170, 160, 255⟩
    (by norm_num [pixelHd, pixelHue, pixelSat, rgbToHsv, mkKeyDescriptor, hueDist,
      HUE_RANGE, MIN_SAT])).1
    (by norm_num [pixelHd, pixelHue, pixelSat, rgbToHsv, mkKeyDescriptor, hueDist,
      EDGE_HUE_RANGE, MIN_SAT])).1
    (by norm_num [pixelHd, pixelHue, pixelSat, rgbToHsv, mkKeyDescriptor, hueDist,
      tOfHd, HUE_RANGE, EDGE_HUE_RANGE])

/-! ### C8: monotonicity of the edge-band alpha -/

/-- C8: the edge-band alpha `round(t(hd)^1.5 * 255)` is monotonically
non-decreasing in `hd` on `[HUE_RANGE, EDGE_HUE_RANGE]`, both for the
real-valued formula `jsPowRound` and for the classifier's `edgeAlpha`. -/
theorem edge_alpha_monotone (hd1 hd2 : ℚ) (h1 : HUE_RANGE ≤ hd1) (h12 : hd1 ≤ hd2)
    (h2 : hd2 ≤ EDGE_HUE_RANGE) :
    jsPowRound (tOfHd hd1) ≤ jsPowRound (tOfHd hd2)
    ∧ edgeAlpha (tOfHd hd1) ≤ edgeAlpha (tOfHd hd2) := by
  have h35 : (35 : ℚ) ≤ hd1 := by simpa [HUE_RANGE] using h1
  have ht1 : 0 ≤ tOfHd hd1 := by
    simp only [tOfHd, HUE_RANGE, EDGE_HUE_RANGE]
    exact div_nonneg (by linarith) (by norm_num)
  have ht12 : tOfHd hd1 ≤ tOfHd hd2 := by
    simp only [tOfHd, HUE_RANGE, EDGE_HUE_RANGE]
    rw [div_le_div_iff_of_pos_right (by norm_num)]
    linarith
  constructor
  · unfold jsPowRound
    apply Int.floor_mono
    have hc1 : (0 : ℝ) ≤ ((tOfHd hd1 : ℚ) : ℝ) := by exact_mod_cast ht1
    have hc12 : (((tOfHd hd1 : ℚ)) : ℝ) ≤ ((tOfHd hd2 : ℚ) : ℝ) := by exact_mod_cast ht12
    have hr := Real.rpow_le_rpow hc1 hc12 (by norm_num : (0 : ℝ) ≤ (3 : ℝ) / 2)
    linarith
  · unfold edgeAlpha
    apply Nat.div_le_div_right
    apply Nat.add_le_add_right
    apply Nat.sqrt_le_sqrt
    apply Int.toNat_le_toNat
    apply Int.floor_mono
    have hp := pow_le_pow_left₀ ht1 ht12 3
    nlinarith

/-- Witness for C8: monotonicity applied at the band endpoints
`hd = 35` and `hd = 55`. -/
theorem edge_alpha_monotone_witness :
    jsPowRound (tOfHd 35) ≤ jsPowRound (tOfHd 55)
    ∧ edgeAlpha (tOfHd 35) ≤ edgeAlpha (tOfHd 55) :=
  edge_alpha_monotone 35 55 (by norm_num [HUE_RANGE]) (by norm_num)
    (by norm_num [EDGE_HUE_RANGE])

end Nobg
